import Mathlib

/-!
Verification of the `okasakish` persistent heap library: a shallow embedding
of its two heap implementations (`LeftistHeap` in `src/leftist_heap.rs`,
`BinomialHeap` in `src/binomial_heap.rs`) together with proofs about the
operations of the shared `Heap` contract (`src/heap.rs`).
-/

namespace Okasakish

namespace Leftist

/-- `LeftistHeap<T>`: `head: Link<T>` with `Link<T> = Option<Arc<Node<T>>>` and
`Node { rank: i32, elem: T, a: Link<T>, b: Link<T> }`.  `nil` is the absent
link, `node` an allocated node. -/
inductive LHeap (α : Type) where
  | nil : LHeap α
  | node (rank : Int) (elem : α) (a : LHeap α) (b : LHeap α) : LHeap α
deriving DecidableEq, Repr

variable {α : Type}

/-- `fn rank<T>(link: &Link<T>) -> i32`: 0 for an absent link, else the stored
rank field. -/
def rank : LHeap α → Int
  | .nil => 0
  | .node r _ _ _ => r

/-- Number of elements stored in the heap (used as a termination measure). -/
def size : LHeap α → Nat
  | .nil => 0
  | .node _ _ a b => size a + size b + 1

/-- The multiset of elements held by the heap. -/
def elems : LHeap α → Multiset α
  | .nil => 0
  | .node _ e a b => e ::ₘ (elems a + elems b)

/-- `fn link<T>(rank, elem, a, b) -> Link<T>`: allocate a node. -/
def link (r : Int) (e : α) (a b : LHeap α) : LHeap α := .node r e a b

/-- The rank-restoring step at the end of `LeftistHeap::merge` (lines
`let ra = rank(&a); let rb = rank(&b); if ra >= rb { link(rb + 1, elem, a, b) }
else { link(ra + 1, elem, b, a) }`). -/
def balance (e : α) (a b : LHeap α) : LHeap α :=
  if rank a ≥ rank b then link (rank b + 1) e a b else link (rank a + 1) e b a

/-- `LeftistHeap::merge`: structural recursion on the two heads; the root with
the smaller element is kept (ties go to `self`), its `b` child is merged with
the whole other heap, and the rank comparison step (`balance`) decides which
result becomes `a` and which `b`. -/
def merge [LinearOrder α] : LHeap α → LHeap α → LHeap α
  | .nil, .nil => .nil
  | .node r1 x1 a1 b1, .nil => .node r1 x1 a1 b1
  | .nil, .node r2 x2 a2 b2 => .node r2 x2 a2 b2
  | .node r1 x1 a1 b1, .node r2 x2 a2 b2 =>
      if x1 ≤ x2 then
        balance x1 a1 (merge b1 (.node r2 x2 a2 b2))
      else
        balance x2 a2 (merge (.node r1 x1 a1 b1) b2)
termination_by h1 h2 => size h1 + size h2
decreasing_by
  · simp [size]; omega
  · simp [size]; omega

/-- `LeftistHeap::empty`. -/
def empty : LHeap α := .nil

/-- `LeftistHeap::is_empty`: `self.head.is_none()`. -/
def is_empty : LHeap α → Bool
  | .nil => true
  | .node _ _ _ _ => false

/-- `LeftistHeap::insert`: `self.merge(&LeftistHeap { head: link(1, item, None, None) })`. -/
def insert [LinearOrder α] (h : LHeap α) (item : α) : LHeap α :=
  merge h (link 1 item .nil .nil)

/-- `LeftistHeap::find_min`: `self.head.as_ref().map(|node| node.elem.clone())`. -/
def find_min : LHeap α → Option α
  | .nil => none
  | .node _ e _ _ => some e

/-- `LeftistHeap::delete_min`: merge the two children of the root, or empty. -/
def delete_min [LinearOrder α] : LHeap α → LHeap α
  | .nil => .nil
  | .node _ _ a b => merge a b

/-- Inner collapsing loop of `FromIterator::from_iter` (lines 269-278).  The
stack is represented with its top as the HEAD of the list (Rust's
`stack[end-1]` is the list head, `stack[end-2]` the second entry).  The loop
breaks when fewer than two entries remain or when
`rank(&stack[end-2].head) <= rank(&stack[end-1].head)`; otherwise it pops
`a` (the top) and `b` (the second) and pushes `a.merge(&b)`. -/
def collapse [LinearOrder α] : List (LHeap α) → List (LHeap α)
  | top :: second :: rest =>
      if rank second ≤ rank top then top :: second :: rest
      else collapse (merge top second :: rest)
  | s => s
termination_by s => s.length

/-- The input-consuming phase of `from_iter` (lines 267-279): for each item,
push a singleton `link(1, item, None, None)` and run the collapsing loop. -/
def pushPhase [LinearOrder α] : List α → List (LHeap α) → List (LHeap α)
  | [], stack => stack
  | x :: xs, stack => pushPhase xs (collapse (link 1 x .nil .nil :: stack))

/-- The final phase of `from_iter` (lines 281-286): while more than one entry
remains, pop `a` (top) and `b` (second) and push `a.merge(&b)`. -/
def mergeRemaining [LinearOrder α] : List (LHeap α) → List (LHeap α)
  | a :: b :: rest => mergeRemaining (merge a b :: rest)
  | s => s
termination_by s => s.length

/-- `FromIterator::from_iter` for `LeftistHeap` (lines 264-289):
`stack.pop().unwrap_or(Heap::empty())` after both phases. -/
def from_iter [LinearOrder α] (l : List α) : LHeap α :=
  match mergeRemaining (pushPhase l []) with
  | h :: _ => h
  | [] => empty

/-- One call of `IntoIter::next` (lines 247-251): read `find_min`, step the
state to `delete_min`, return the read item paired with the new state. -/
def iterNext [LinearOrder α] (h : LHeap α) : Option α × LHeap α :=
  (find_min h, delete_min h)

/-- The results of the first `n` calls of `IntoIter::next` starting from
state `h`. -/
def iterTake [LinearOrder α] : Nat → LHeap α → List (Option α)
  | 0, _ => []
  | n + 1, h => (iterNext h).1 :: iterTake n (iterNext h).2

/-- Repeatedly read-and-remove the minimum (`find_min` / `delete_min`),
stopping when the heap holds no more elements (`find_min` returns absence);
`n` bounds the number of extractions. -/
def drain [LinearOrder α] : Nat → LHeap α → List α
  | 0, _ => []
  | n + 1, h =>
      match find_min h with
      | none => []
      | some m => m :: drain n (delete_min h)

/-- Heap order: every node's element is `≤` every element of both subtrees. -/
inductive HeapOrdered [LinearOrder α] : LHeap α → Prop where
  | nil : HeapOrdered .nil
  | node (r : Int) (e : α) (a b : LHeap α) :
      HeapOrdered a → HeapOrdered b →
      (∀ x ∈ elems a, e ≤ x) → (∀ x ∈ elems b, e ≤ x) →
      HeapOrdered (.node r e a b)

/-- The leftist invariant: at every node `rank a ≥ rank b` and the stored rank
field equals `rank b + 1`. -/
inductive LeftistInv : LHeap α → Prop where
  | nil : LeftistInv .nil
  | node (e : α) (a b : LHeap α) :
      LeftistInv a → LeftistInv b → rank a ≥ rank b →
      LeftistInv (.node (rank b + 1) e a b)

theorem elems_balance (e : α) (a b : LHeap α) :
    elems (balance e a b) = e ::ₘ (elems a + elems b) := by
  unfold balance link
  split <;> simp [elems, add_comm]

theorem elems_merge [LinearOrder α] (h1 h2 : LHeap α) :
    elems (merge h1 h2) = elems h1 + elems h2 := by
  induction h1, h2 using merge.induct with
  | case1 => simp [merge, elems]
  | case2 r1 x1 a1 b1 => simp [merge, elems]
  | case3 r2 x2 a2 b2 => simp [merge, elems]
  | case4 r1 x1 a1 b1 r2 x2 a2 b2 hle ih =>
      rw [merge]
      simp only [if_pos hle, elems_balance, ih, elems]
      simp only [Multiset.cons_add, ← Multiset.singleton_add]
      abel
  | case5 r1 x1 a1 b1 r2 x2 a2 b2 hle ih =>
      rw [merge]
      simp only [if_neg hle, elems_balance, ih, elems]
      simp only [Multiset.cons_add, ← Multiset.singleton_add]
      abel

theorem heapOrdered_balance [LinearOrder α] {e : α} {a b : LHeap α}
    (ha : HeapOrdered a) (hb : HeapOrdered b)
    (hea : ∀ x ∈ elems a, e ≤ x) (heb : ∀ x ∈ elems b, e ≤ x) :
    HeapOrdered (balance e a b) := by
  unfold balance link
  split
  · exact .node _ _ _ _ ha hb hea heb
  · exact .node _ _ _ _ hb ha heb hea

theorem heapOrdered_root_le [LinearOrder α] {r : Int} {e : α} {a b : LHeap α}
    (h : HeapOrdered (.node r e a b)) : ∀ x ∈ elems (LHeap.node r e a b), e ≤ x := by
  cases h with
  | node r e a b ha hb hea heb =>
      intro x hx
      simp only [elems, Multiset.mem_cons, Multiset.mem_add] at hx
      rcases hx with rfl | hx | hx
      · exact le_refl x
      · exact hea x hx
      · exact heb x hx

theorem heapOrdered_merge [LinearOrder α] {h1 h2 : LHeap α}
    (o1 : HeapOrdered h1) (o2 : HeapOrdered h2) : HeapOrdered (merge h1 h2) := by
  induction h1, h2 using merge.induct with
  | case1 => simpa [merge] using o1
  | case2 r1 x1 a1 b1 => simpa [merge] using o1
  | case3 r2 x2 a2 b2 => simpa [merge] using o2
  | case4 r1 x1 a1 b1 r2 x2 a2 b2 hle ih =>
      rw [merge, if_pos hle]
      cases o1 with
      | node _ _ _ _ ha1 hb1 hea1 heb1 =>
          refine heapOrdered_balance ha1 (ih hb1 o2) hea1 ?_
          intro x hx
          rw [elems_merge] at hx
          rcases Multiset.mem_add.mp hx with hx | hx
          · exact heb1 x hx
          · exact le_trans hle (heapOrdered_root_le o2 x hx)
  | case5 r1 x1 a1 b1 r2 x2 a2 b2 hle ih =>
      rw [merge, if_neg hle]
      cases o2 with
      | node _ _ _ _ ha2 hb2 hea2 heb2 =>
          refine heapOrdered_balance ha2 (ih o1 hb2) hea2 ?_
          intro x hx
          rw [elems_merge] at hx
          rcases Multiset.mem_add.mp hx with hx | hx
          · exact le_trans (le_of_lt (lt_of_not_le hle)) (heapOrdered_root_le o1 x hx)
          · exact heb2 x hx

theorem leftistInv_balance (e : α) {a b : LHeap α}
    (ha : LeftistInv a) (hb : LeftistInv b) : LeftistInv (balance e a b) := by
  unfold balance link
  split
  · next hge => exact .node e a b ha hb hge
  · next hlt => exact .node e b a hb ha (le_of_lt (lt_of_not_le hlt))

theorem leftistInv_merge [LinearOrder α] {h1 h2 : LHeap α}
    (i1 : LeftistInv h1) (i2 : LeftistInv h2) : LeftistInv (merge h1 h2) := by
  induction h1, h2 using merge.induct with
  | case1 => simpa [merge] using i1
  | case2 r1 x1 a1 b1 => simpa [merge] using i1
  | case3 r2 x2 a2 b2 => simpa [merge] using i2
  | case4 r1 x1 a1 b1 r2 x2 a2 b2 hle ih =>
      rw [merge, if_pos hle]
      cases i1 with
      | node _ _ _ ha1 hb1 _ => exact leftistInv_balance _ ha1 (ih hb1 i2)
  | case5 r1 x1 a1 b1 r2 x2 a2 b2 hle ih =>
      rw [merge, if_neg hle]
      cases i2 with
      | node _ _ _ ha2 hb2 _ => exact leftistInv_balance _ ha2 (ih i1 hb2)

theorem card_elems (h : LHeap α) : Multiset.card (elems h) = size h := by
  induction h with
  | nil => simp [elems, size]
  | node r e a b iha ihb => simp [elems, size, iha, ihb]

theorem size_merge [LinearOrder α] (h1 h2 : LHeap α) :
    size (merge h1 h2) = size h1 + size h2 := by
  have := congrArg Multiset.card (elems_merge h1 h2)
  simpa [card_elems] using this

theorem elems_eq_zero_iff_nil (h : LHeap α) : elems h = 0 ↔ h = .nil := by
  cases h with
  | nil => simp [elems]
  | node r e a b => simp [elems]

theorem find_min_eq_none_iff (h : LHeap α) : find_min h = none ↔ h = .nil := by
  cases h <;> simp [find_min]

theorem find_min_spec [LinearOrder α] {h : LHeap α} (o : HeapOrdered h) {m : α}
    (hm : find_min h = some m) : m ∈ elems h ∧ ∀ x ∈ elems h, m ≤ x := by
  cases h with
  | nil => simp [find_min] at hm
  | node r e a b =>
      simp only [find_min, Option.some.injEq] at hm
      subst hm
      exact ⟨by simp [elems], heapOrdered_root_le o⟩

theorem elems_delete_min [LinearOrder α] {h : LHeap α} {m : α}
    (hm : find_min h = some m) : elems h = m ::ₘ elems (delete_min h) := by
  cases h with
  | nil => simp [find_min] at hm
  | node r e a b =>
      simp only [find_min, Option.some.injEq] at hm
      subst hm
      simp [delete_min, elems, elems_merge]

theorem heapOrdered_delete_min [LinearOrder α] {h : LHeap α} (o : HeapOrdered h) :
    HeapOrdered (delete_min h) := by
  cases o with
  | nil => exact .nil
  | node r e a b ha hb _ _ => exact heapOrdered_merge ha hb

theorem leftistInv_delete_min [LinearOrder α] {h : LHeap α} (i : LeftistInv h) :
    LeftistInv (delete_min h) := by
  cases i with
  | nil => exact .nil
  | node e a b ha hb _ => exact leftistInv_merge ha hb

/-- Draining `size h` elements from a heap-ordered heap produces a sorted
list whose multiset is exactly the heap's contents. -/
theorem drain_sorted_perm [LinearOrder α] :
    ∀ (n : Nat) (h : LHeap α), HeapOrdered h → size h = n →
      (drain n h).Sorted (· ≤ ·) ∧ ((drain n h : List α) : Multiset α) = elems h := by
  intro n
  induction n with
  | zero =>
      intro h _ hs
      cases h with
      | nil => simp [drain, elems]
      | node r e a b => simp [size] at hs
  | succ n ih =>
      intro h o hs
      cases h with
      | nil => simp [size] at hs
      | node r e a b =>
          have hfm : find_min (LHeap.node r e a b) = some e := rfl
          have hsz : size (delete_min (LHeap.node r e a b)) = n := by
            simp only [delete_min, size_merge]
            simp [size] at hs
            omega
          have ⟨ihs, ihp⟩ := ih _ (heapOrdered_delete_min o) hsz
          have hroot := heapOrdered_root_le o
          have helems := elems_delete_min hfm
          constructor
          · rw [drain]
            simp only [hfm]
            rw [List.sorted_cons]
            refine ⟨?_, ihs⟩
            intro x hx
            have : x ∈ elems (delete_min (LHeap.node r e a b)) := by
              rw [← ihp]
              simpa using hx
            exact hroot x (by rw [helems]; exact Multiset.mem_cons_of_mem this)
          · rw [drain]
            simp only [hfm]
            rw [helems, ← ihp]
            exact (Multiset.cons_coe e _).symm

/-- Every heap on the working stack of `from_iter` is heap-ordered and
leftist. -/
def StackInv [LinearOrder α] (s : List (LHeap α)) : Prop :=
  ∀ h ∈ s, HeapOrdered h ∧ LeftistInv h

/-- The multiset of all elements on the working stack. -/
def stackElems (s : List (LHeap α)) : Multiset α := (s.map elems).sum

theorem stackElems_cons (h : LHeap α) (s : List (LHeap α)) :
    stackElems (h :: s) = elems h + stackElems s := by
  simp [stackElems]

theorem collapse_stackInv [LinearOrder α] {s : List (LHeap α)} (hs : StackInv s) :
    StackInv (collapse s) ∧ stackElems (collapse s) = stackElems s := by
  induction s using collapse.induct with
  | case1 top second rest hle =>
      rw [collapse, if_pos hle]
      exact ⟨hs, rfl⟩
  | case2 top second rest hle ih =>
      rw [collapse, if_neg hle]
      have htop := hs top (by simp)
      have hsecond := hs second (by simp)
      have hmerged : StackInv (merge top second :: rest) := by
        intro h hh
        rcases List.mem_cons.mp hh with rfl | hh
        · exact ⟨heapOrdered_merge htop.1 hsecond.1, leftistInv_merge htop.2 hsecond.2⟩
        · exact hs h (by simp [hh])
      have ⟨i1, i2⟩ := ih hmerged
      refine ⟨i1, ?_⟩
      rw [i2, stackElems_cons, stackElems_cons, stackElems_cons, elems_merge]
      abel
  | case3 s hns =>
      have hcs : collapse s = s := by
        rw [collapse]
        exact hns
      rw [hcs]
      exact ⟨hs, rfl⟩

theorem pushPhase_stackInv [LinearOrder α] :
    ∀ (l : List α) (s : List (LHeap α)), StackInv s →
      StackInv (pushPhase l s) ∧ stackElems (pushPhase l s) = ↑l + stackElems s := by
  intro l
  induction l with
  | nil => intro s hs; exact ⟨hs, by simp [pushPhase]⟩
  | cons x xs ih =>
      intro s hs
      have hsingle : HeapOrdered (link 1 x .nil .nil) ∧ LeftistInv (link 1 x .nil .nil) := by
        constructor
        · exact .node 1 x .nil .nil .nil .nil (by simp [elems]) (by simp [elems])
        · have := LeftistInv.node x LHeap.nil LHeap.nil .nil .nil (le_refl _)
          simpa [rank, link] using this
      have hpushed : StackInv (link 1 x .nil .nil :: s) := by
        intro h hh
        rcases List.mem_cons.mp hh with rfl | hh
        · exact hsingle
        · exact hs h hh
      have ⟨c1, c2⟩ := collapse_stackInv hpushed
      have ⟨p1, p2⟩ := ih _ c1
      refine ⟨by simpa [pushPhase] using p1, ?_⟩
      rw [pushPhase, p2, c2, stackElems_cons]
      simp only [elems, link, ← Multiset.cons_coe, Multiset.cons_add, add_zero,
        Multiset.cons_swap]
      simp only [← Multiset.singleton_add]
      abel

theorem mergeRemaining_stackInv [LinearOrder α] {s : List (LHeap α)} (hs : StackInv s) :
    StackInv (mergeRemaining s) ∧ stackElems (mergeRemaining s) = stackElems s := by
  induction s using mergeRemaining.induct with
  | case1 a b rest ih =>
      rw [mergeRemaining]
      have ha := hs a (by simp)
      have hb := hs b (by simp)
      have hmerged : StackInv (merge a b :: rest) := by
        intro h hh
        rcases List.mem_cons.mp hh with rfl | hh
        · exact ⟨heapOrdered_merge ha.1 hb.1, leftistInv_merge ha.2 hb.2⟩
        · exact hs h (by simp [hh])
      have ⟨i1, i2⟩ := ih hmerged
      refine ⟨i1, ?_⟩
      rw [i2, stackElems_cons, stackElems_cons, stackElems_cons, elems_merge]
      abel
  | case2 s hns =>
      have hcs : mergeRemaining s = s := by
        rw [mergeRemaining]
        exact hns
      rw [hcs]
      exact ⟨hs, rfl⟩

theorem mergeRemaining_short [LinearOrder α] (s : List (LHeap α)) :
    mergeRemaining s = [] ∨ ∃ h, mergeRemaining s = [h] := by
  induction s using mergeRemaining.induct with
  | case1 a b rest ih => rw [mergeRemaining]; exact ih
  | case2 s hns =>
      have hcs : mergeRemaining s = s := by
        rw [mergeRemaining]
        exact hns
      rw [hcs]
      cases s with
      | nil => exact Or.inl rfl
      | cons a t =>
          cases t with
          | nil => exact Or.inr ⟨a, rfl⟩
          | cons b u => exact absurd rfl (hns a b u)

theorem from_iter_spec [LinearOrder α] (l : List α) :
    HeapOrdered (from_iter l) ∧ LeftistInv (from_iter l) ∧ elems (from_iter l) = ↑l := by
  have hempty : StackInv ([] : List (LHeap α)) := by intro h hh; simp at hh
  obtain ⟨p1, p2⟩ := pushPhase_stackInv l [] hempty
  obtain ⟨m1, m2⟩ := mergeRemaining_stackInv p1
  have htot : stackElems (mergeRemaining (pushPhase l [])) = ↑l := by
    rw [m2, p2]
    simp [stackElems]
  rcases mergeRemaining_short (pushPhase l []) with hnil | ⟨h, hone⟩
  · have hfi : from_iter l = empty := by
      simp only [from_iter, hnil]
    have hl0 : (l : Multiset α) = 0 := by
      rw [← htot, hnil]
      simp [stackElems]
    rw [hfi]
    refine ⟨.nil, .nil, ?_⟩
    rw [show (elems (empty : LHeap α)) = 0 from rfl]
    exact hl0.symm
  · have hfi : from_iter l = h := by
      simp only [from_iter, hone]
    have hmem := m1 h (by rw [hone]; simp)
    have helems : elems h = ↑l := by
      rw [← htot, hone]
      simp [stackElems]
    rw [hfi]
    exact ⟨hmem.1, hmem.2, helems⟩

/-- Heaps reachable through the public operations, including bulk
construction. -/
inductive Reachable [LinearOrder α] : LHeap α → Prop where
  | empty : Reachable empty
  | insert (h : LHeap α) (x : α) : Reachable h → Reachable (Leftist.insert h x)
  | merge (h1 h2 : LHeap α) : Reachable h1 → Reachable h2 → Reachable (merge h1 h2)
  | delete_min (h : LHeap α) : Reachable h → Reachable (delete_min h)
  | from_iter (l : List α) : Reachable (from_iter l)

theorem reachable_inv [LinearOrder α] {h : LHeap α} (hr : Reachable h) :
    HeapOrdered h ∧ LeftistInv h := by
  induction hr with
  | empty => exact ⟨.nil, .nil⟩
  | insert h x _ ih =>
      refine ⟨heapOrdered_merge ih.1 ?_, leftistInv_merge ih.2 ?_⟩
      · exact .node 1 x .nil .nil .nil .nil (by simp [elems]) (by simp [elems])
      · have := LeftistInv.node x LHeap.nil LHeap.nil .nil .nil (le_refl _)
        simpa [rank, link] using this
  | merge h1 h2 _ _ ih1 ih2 =>
      exact ⟨heapOrdered_merge ih1.1 ih2.1, leftistInv_merge ih1.2 ih2.2⟩
  | delete_min h _ ih =>
      exact ⟨heapOrdered_delete_min ih.1, leftistInv_delete_min ih.2⟩
  | from_iter l =>
      exact ⟨(from_iter_spec l).1, (from_iter_spec l).2.1⟩

theorem size_eq_zero_iff_nil (h : LHeap α) : size h = 0 ↔ h = .nil := by
  cases h <;> simp [size]

theorem iterTake_nil [LinearOrder α] (k : Nat) :
    iterTake k (LHeap.nil : LHeap α) = List.replicate k none := by
  induction k with
  | zero => simp [iterTake]
  | succ k ih => simp [iterTake, iterNext, find_min, delete_min, ih, List.replicate_succ]

/-- The consuming iterator first yields the drained (sorted) elements, then
yields absence forever. -/
theorem iterTake_spec [LinearOrder α] :
    ∀ (n : Nat) (h : LHeap α), size h = n → ∀ (k : Nat),
      iterTake (n + k) h = (drain n h).map some ++ List.replicate k none := by
  intro n
  induction n with
  | zero =>
      intro h hs k
      have : h = .nil := (size_eq_zero_iff_nil h).mp hs
      subst this
      simp [drain, iterTake_nil]
  | succ n ih =>
      intro h hs k
      cases h with
      | nil => simp [size] at hs
      | node r e a b =>
          have hstep : iterTake (n + 1 + k) (LHeap.node r e a b) =
              some e :: iterTake (n + k) (merge a b) := by
            have : n + 1 + k = (n + k) + 1 := by omega
            rw [this, iterTake]
            simp [iterNext, find_min, delete_min]
          have hsz : size (merge a b) = n := by
            rw [size_merge]
            simp [size] at hs
            omega
          rw [hstep, ih _ hsz k]
          rw [drain]
          simp [find_min, delete_min]

end Leftist

namespace Binomial

/-- `Node<T> { elem: T, children: Vec<Link<T>> }` of `src/binomial_heap.rs`. -/
inductive BNode (α : Type) where
  | mk (elem : α) (children : List (BNode α)) : BNode α

variable {α : Type}

def BNode.elem : BNode α → α
  | .mk e _ => e

def BNode.children : BNode α → List (BNode α)
  | .mk _ cs => cs

/-- `fn link<T>(a, b)`: the root with the larger element becomes a new LAST
child of the root with the smaller element (ties pick `b` as the smaller,
because the code tests `a.elem < b.elem`). -/
def link [LinearOrder α] (a b : BNode α) : BNode α :=
  if a.elem < b.elem then .mk a.elem (a.children ++ [b]) else .mk b.elem (b.children ++ [a])

mutual

/-- The multiset of elements of one tree. -/
def BNode.elems : BNode α → Multiset α
  | .mk e cs => e ::ₘ elemsList cs

/-- The multiset of elements of a list of trees. -/
def elemsList : List (BNode α) → Multiset α
  | [] => 0
  | t :: ts => BNode.elems t + elemsList ts

end

/-- `BinomialHeap<T> { trees: Vec<Option<Link<T>>> }`. -/
structure BinomialHeap (α : Type) where
  trees : List (Option (BNode α))

def slotElems : Option (BNode α) → Multiset α
  | none => 0
  | some t => t.elems

/-- The multiset of elements of a forest (a vector of optional trees). -/
def forestElems : List (Option (BNode α)) → Multiset α
  | [] => 0
  | s :: ss => slotElems s + forestElems ss

/-- The multiset of elements held by a `BinomialHeap`. -/
def elems (h : BinomialHeap α) : Multiset α := forestElems h.trees

/-- One iteration of the carry-propagating loop in `BinomialHeap::merge`
(lines 52-61): from the two current slots and the carry, produce the output
slot and the new carry. -/
def mergeStep [LinearOrder α] :
    Option (BNode α) → Option (BNode α) → Option (BNode α) →
      Option (BNode α) × Option (BNode α)
  | none, none, none => (none, none)
  | some x, none, none => (some x, none)
  | none, some y, none => (some y, none)
  | none, none, some z => (some z, none)
  | some x, some y, none => (none, some (link x y))
  | some x, none, some z => (none, some (link x z))
  | none, some y, some z => (none, some (link y z))
  | some x, some y, some z => (some z, some (link x y))

/-- The `for` loop of `BinomialHeap::merge`: `n` iterations over the two
forests (padded with absent slots, as the `chain(iter::repeat(None))`
iterators do) threading the carry. -/
def mergeLoop [LinearOrder α] :
    Nat → List (Option (BNode α)) → List (Option (BNode α)) → Option (BNode α) →
      List (Option (BNode α))
  | 0, _, _, _ => []
  | n + 1, xs, ys, c =>
      let p := mergeStep (xs.headD none) (ys.headD none) c
      p.1 :: mergeLoop n xs.tail ys.tail p.2

/-- Lines 63-65 of `BinomialHeap::merge`: `if let Some(&None) = result.last()
{ result.pop(); }` — at most ONE trailing empty slot is removed. -/
def popTrailingNone : List (Option (BNode α)) → List (Option (BNode α)) :=
  fun l =>
    match l.getLast? with
    | some none => l.dropLast
    | _ => l

/-- `BinomialHeap::merge`: run the carry loop for
`cap = max(self.trees.len(), other.trees.len()) + 1` iterations, then drop a
single trailing empty slot. -/
def merge [LinearOrder α] (h1 h2 : BinomialHeap α) : BinomialHeap α :=
  ⟨popTrailingNone (mergeLoop (max h1.trees.length h2.trees.length + 1) h1.trees h2.trees none)⟩

/-- `BinomialHeap::empty`. -/
def empty : BinomialHeap α := ⟨[]⟩

/-- `BinomialHeap::is_empty`: `self.trees.is_empty()` — tests the SLOT VECTOR,
not the element content. -/
def is_empty (h : BinomialHeap α) : Bool := h.trees.isEmpty

/-- `BinomialHeap::insert`: build a singleton forest and merge `self` INTO it
(`BinomialHeap { trees: vec![Some(..)] }.merge(self)`). -/
def insert [LinearOrder α] (h : BinomialHeap α) (item : α) : BinomialHeap α :=
  merge ⟨[some (.mk item [])]⟩ h

/-- `fn min_index<T>`: enumerate the non-empty slots as `(index, root elem)`
pairs and fold, keeping the current pair when its element is strictly
smaller (`if &a < &b { (ai, a) } else { (bi, b) }`). -/
def min_index [LinearOrder α] (v : List (Option (BNode α))) : Option Nat :=
  match v.enum.filterMap (fun p => p.2.map (fun t => (p.1, t.elem))) with
  | [] => none
  | p :: rest => some ((rest.foldl (fun x y => if x.2 < y.2 then x else y) p).1)

/-- `BinomialHeap::find_min`: look up the root element at `min_index` (the
code's `unwrap` is modelled by the flattening lookup, and is proved to
succeed whenever `min_index` returns an index). -/
def find_min [LinearOrder α] (h : BinomialHeap α) : Option α :=
  match min_index h.trees with
  | none => none
  | some i => (h.trees.getD i none).map BNode.elem

/-- `BinomialHeap::delete_min`: empty the minimum slot (`take`), turn the
taken root's children into a forest, and merge it back.  The code `unwrap`s
the taken slot; the impossible absent case (proved unreachable whenever
`min_index` returns an index) is modelled as the empty heap. -/
def delete_min [LinearOrder α] (h : BinomialHeap α) : BinomialHeap α :=
  match min_index h.trees with
  | none => empty
  | some i =>
      match h.trees.getD i none with
      | none => empty
      | some t => merge ⟨h.trees.set i none⟩ ⟨t.children.map some⟩

/-- A binomial tree of rank `r`: exactly `r` children, and the child stored
at position `i` is itself a binomial tree of rank `i` (so the stored order is
SMALLEST to largest rank). -/
inductive GoodTree : Nat → BNode α → Prop where
  | mk (e : α) (cs : List (BNode α)) :
      (∀ i t, cs.get? i = some t → GoodTree i t) →
      GoodTree cs.length (.mk e cs)

/-- Min-heap order within one tree. -/
inductive Ordered [LinearOrder α] : BNode α → Prop where
  | mk (e : α) (cs : List (BNode α)) :
      (∀ c ∈ cs, Ordered c) → (∀ x ∈ elemsList cs, e ≤ x) →
      Ordered (.mk e cs)

/-- The slots of `ts` starting at rank offset `r0`: the slot at position `i`
is either empty or holds a binomial tree of rank `r0 + i`. -/
def GoodFrom (r0 : Nat) (ts : List (Option (BNode α))) : Prop :=
  ∀ i t, ts.get? i = some (some t) → GoodTree (r0 + i) t

/-- The binomial forest invariant: the slot at index `r` is empty or holds one
binomial tree of rank exactly `r`. -/
def GoodForest (ts : List (Option (BNode α))) : Prop := GoodFrom 0 ts

/-- Every tree of the forest is min-heap ordered. -/
def OrderedForest [LinearOrder α] (ts : List (Option (BNode α))) : Prop :=
  ∀ i t, ts.get? i = some (some t) → Ordered t

theorem elemsList_append (cs ds : List (BNode α)) :
    elemsList (cs ++ ds) = elemsList cs + elemsList ds := by
  induction cs with
  | nil => simp [elemsList]
  | cons t ts ih => simp [elemsList, ih, add_assoc]

theorem elems_mk (e : α) (cs : List (BNode α)) :
    BNode.elems (.mk e cs) = e ::ₘ elemsList cs := by
  rw [BNode.elems]

theorem link_elems [LinearOrder α] (a b : BNode α) :
    (link a b).elems = a.elems + b.elems := by
  cases a with
  | mk ea csa =>
      cases b with
      | mk eb csb =>
          unfold link
          split
          · simp only [BNode.elem, BNode.children, elems_mk, elemsList_append,
              elemsList, add_zero, Multiset.cons_add, ← Multiset.singleton_add]
            abel
          · simp only [BNode.elem, BNode.children, elems_mk, elemsList_append,
              elemsList, add_zero, Multiset.cons_add, ← Multiset.singleton_add]
            abel

theorem ordered_root_le [LinearOrder α] {t : BNode α} (h : Ordered t) :
    ∀ x ∈ t.elems, t.elem ≤ x := by
  cases h with
  | mk e cs hcs hle =>
      intro x hx
      simp only [elems_mk, Multiset.mem_cons] at hx
      rcases hx with rfl | hx
      · exact le_refl _
      · exact hle x hx

theorem link_goodTree [LinearOrder α] {r : Nat} {a b : BNode α}
    (ha : GoodTree r a) (hb : GoodTree r b) : GoodTree (r + 1) (link a b) := by
  have key : ∀ (x y : BNode α), GoodTree r x → GoodTree r y →
      GoodTree (r + 1) (.mk x.elem (x.children ++ [y])) := by
    intro x y hx hy
    cases hx with
    | mk e cs hcs =>
        have hlen : (cs ++ [y]).length = cs.length + 1 := by simp
        have hget : ∀ i t, (cs ++ [y]).get? i = some t → GoodTree i t := by
          intro i t hit
          rcases lt_trichotomy i cs.length with hi | hi | hi
          · rw [List.get?_append hi] at hit
            exact hcs i t hit
          · subst hi
            rw [List.get?_concat_length] at hit
            cases hit
            exact hy
          · rw [List.get?_eq_none.mpr (by simp; omega)] at hit
            cases hit
        have := GoodTree.mk (BNode.elem (.mk e cs)) (cs ++ [y]) hget
        simpa [hlen, BNode.children] using this
  unfold link
  split
  · exact key a b ha hb
  · exact key b a hb ha

theorem link_ordered [LinearOrder α] {a b : BNode α}
    (ha : Ordered a) (hb : Ordered b) : Ordered (link a b) := by
  have key : ∀ (x y : BNode α), Ordered x → Ordered y → x.elem ≤ y.elem →
      Ordered (.mk x.elem (x.children ++ [y])) := by
    intro x y hx hy hxy
    cases hx with
    | mk e cs hcs hle =>
        refine Ordered.mk _ _ ?_ ?_
        · intro c hc
          rcases List.mem_append.mp hc with hc | hc
          · exact hcs c hc
          · rcases List.mem_singleton.mp hc with rfl
            exact hy
        · intro z hz
          rw [elemsList_append] at hz
          rcases Multiset.mem_add.mp hz with hz | hz
          · exact hle z hz
          · simp only [elemsList, add_zero] at hz
            exact le_trans hxy (ordered_root_le hy z hz)
  unfold link
  split
  · next hab => exact key a b ha hb (le_of_lt hab)
  · next hab => exact key b a hb ha (le_of_not_lt hab)

theorem mergeStep_elems [LinearOrder α] (a b c : Option (BNode α)) :
    slotElems (mergeStep a b c).1 + slotElems (mergeStep a b c).2 =
      slotElems a + slotElems b + slotElems c := by
  cases a <;> cases b <;> cases c <;>
    simp [mergeStep, slotElems, link_elems] <;> abel

theorem mergeStep_good [LinearOrder α] {r0 : Nat} {a b c : Option (BNode α)}
    (ha : ∀ t, a = some t → GoodTree r0 t) (hb : ∀ t, b = some t → GoodTree r0 t)
    (hc : ∀ t, c = some t → GoodTree r0 t) :
    (∀ t, (mergeStep a b c).1 = some t → GoodTree r0 t) ∧
      (∀ t, (mergeStep a b c).2 = some t → GoodTree (r0 + 1) t) := by
  cases a <;> cases b <;> cases c <;>
    simp only [mergeStep] <;>
    refine ⟨fun t ht => ?_, fun t ht => ?_⟩ <;>
    simp only [Option.some.injEq, reduceCtorEq] at ht <;>
    cases ht <;>
    first
      | exact ha _ rfl
      | exact hb _ rfl
      | exact hc _ rfl
      | exact link_goodTree (ha _ rfl) (hb _ rfl)
      | exact link_goodTree (ha _ rfl) (hc _ rfl)
      | exact link_goodTree (hb _ rfl) (hc _ rfl)

theorem mergeStep_ordered [LinearOrder α] {a b c : Option (BNode α)}
    (ha : ∀ t, a = some t → Ordered t) (hb : ∀ t, b = some t → Ordered t)
    (hc : ∀ t, c = some t → Ordered t) :
    (∀ t, (mergeStep a b c).1 = some t → Ordered t) ∧
      (∀ t, (mergeStep a b c).2 = some t → Ordered t) := by
  cases a <;> cases b <;> cases c <;>
    simp only [mergeStep] <;>
    refine ⟨fun t ht => ?_, fun t ht => ?_⟩ <;>
    simp only [Option.some.injEq, reduceCtorEq] at ht <;>
    cases ht <;>
    first
      | exact ha _ rfl
      | exact hb _ rfl
      | exact hc _ rfl
      | exact link_ordered (ha _ rfl) (hb _ rfl)
      | exact link_ordered (ha _ rfl) (hc _ rfl)
      | exact link_ordered (hb _ rfl) (hc _ rfl)

theorem forestElems_headD_tail (xs : List (Option (BNode α))) :
    forestElems xs = slotElems (xs.headD none) + forestElems xs.tail := by
  cases xs with
  | nil => simp [forestElems, slotElems]
  | cons s ss => simp [forestElems]

theorem mergeLoop_nil_elems [LinearOrder α] (n : Nat) :
    forestElems (mergeLoop n ([] : List (Option (BNode α))) [] none) = 0 := by
  induction n with
  | zero => simp [mergeLoop, forestElems]
  | succ n ih => simp [mergeLoop, mergeStep, forestElems, slotElems, ih]

theorem mergeLoop_elems [LinearOrder α] :
    ∀ (n : Nat) (xs ys : List (Option (BNode α))) (c : Option (BNode α)),
      xs.length < n → ys.length < n →
      forestElems (mergeLoop n xs ys c) = forestElems xs + forestElems ys + slotElems c := by
  intro n
  induction n with
  | zero => intro xs ys c hx _; omega
  | succ n ih =>
      intro xs ys c hx hy
      by_cases hboth : xs = [] ∧ ys = []
      · obtain ⟨rfl, rfl⟩ := hboth
        cases c with
        | none => simp [mergeLoop, mergeStep, forestElems, slotElems, mergeLoop_nil_elems]
        | some z => simp [mergeLoop, mergeStep, forestElems, slotElems, mergeLoop_nil_elems]
      · have hx' : xs.tail.length < n := by
          cases xs with
          | nil =>
              simp only [List.tail_nil, List.length_nil]
              cases ys with
              | nil => exact absurd ⟨rfl, rfl⟩ hboth
              | cons s ss => simp at hy; omega
          | cons s ss => simp at hx ⊢; omega
        have hy' : ys.tail.length < n := by
          cases ys with
          | nil =>
              simp only [List.tail_nil, List.length_nil]
              cases xs with
              | nil => exact absurd ⟨rfl, rfl⟩ hboth
              | cons s ss => simp at hx; omega
          | cons s ss => simp at hy ⊢; omega
        rw [mergeLoop]
        simp only [forestElems]
        rw [ih _ _ _ hx' hy']
        have hstep := mergeStep_elems (xs.headD none) (ys.headD none) c
        have hxd := forestElems_headD_tail xs
        have hyd := forestElems_headD_tail ys
        rw [hxd, hyd]
        have : slotElems (mergeStep (xs.headD none) (ys.headD none) c).1 +
            (forestElems xs.tail + forestElems ys.tail +
              slotElems (mergeStep (xs.headD none) (ys.headD none) c).2) =
            (slotElems (mergeStep (xs.headD none) (ys.headD none) c).1 +
              slotElems (mergeStep (xs.headD none) (ys.headD none) c).2) +
            (forestElems xs.tail + forestElems ys.tail) := by abel
        rw [this, hstep]
        abel

theorem goodFrom_head [LinearOrder α] {r0 : Nat} {ts : List (Option (BNode α))}
    (h : GoodFrom r0 ts) : ∀ t, ts.headD none = some t → GoodTree r0 t := by
  intro t ht
  cases ts with
  | nil => simp at ht
  | cons s ss =>
      simp only [List.headD_cons] at ht
      have := h 0 t (by simp [ht])
      simpa using this

theorem goodFrom_tail [LinearOrder α] {r0 : Nat} {ts : List (Option (BNode α))}
    (h : GoodFrom r0 ts) : GoodFrom (r0 + 1) ts.tail := by
  intro i t hit
  cases ts with
  | nil => simp at hit
  | cons s ss =>
      simp only [List.tail_cons] at hit
      have := h (i + 1) t (by simpa using hit)
      have heq : r0 + (i + 1) = r0 + 1 + i := by omega
      rwa [heq] at this

theorem goodFrom_cons [LinearOrder α] {r0 : Nat} {o : Option (BNode α)}
    {rest : List (Option (BNode α))}
    (ho : ∀ t, o = some t → GoodTree r0 t) (hrest : GoodFrom (r0 + 1) rest) :
    GoodFrom r0 (o :: rest) := by
  intro i t hit
  cases i with
  | zero =>
      simp only [List.get?] at hit
      exact (by simpa using ho t (by simpa using hit) : GoodTree r0 t)
  | succ i =>
      simp only [List.get?] at hit
      have := hrest i t hit
      have heq : r0 + 1 + i = r0 + (i + 1) := by omega
      rwa [heq] at this

theorem orderedForest_head [LinearOrder α] {ts : List (Option (BNode α))}
    (h : OrderedForest ts) : ∀ t, ts.headD none = some t → Ordered t := by
  intro t ht
  cases ts with
  | nil => simp at ht
  | cons s ss =>
      simp only [List.headD_cons] at ht
      exact h 0 t (by simp [ht])

theorem orderedForest_tail [LinearOrder α] {ts : List (Option (BNode α))}
    (h : OrderedForest ts) : OrderedForest ts.tail := by
  intro i t hit
  cases ts with
  | nil => simp at hit
  | cons s ss =>
      simp only [List.tail_cons] at hit
      exact h (i + 1) t (by simpa using hit)

theorem orderedForest_cons [LinearOrder α] {o : Option (BNode α)}
    {rest : List (Option (BNode α))}
    (ho : ∀ t, o = some t → Ordered t) (hrest : OrderedForest rest) :
    OrderedForest (o :: rest) := by
  intro i t hit
  cases i with
  | zero =>
      simp only [List.get?] at hit
      exact ho t (by simpa using hit)
  | succ i =>
      simp only [List.get?] at hit
      exact hrest i t hit

theorem mergeLoop_good [LinearOrder α] :
    ∀ (n r0 : Nat) (xs ys : List (Option (BNode α))) (c : Option (BNode α)),
      GoodFrom r0 xs → GoodFrom r0 ys → (∀ t, c = some t → GoodTree r0 t) →
      GoodFrom r0 (mergeLoop n xs ys c) := by
  intro n
  induction n with
  | zero => intro r0 xs ys c _ _ _ i t hit; simp [mergeLoop] at hit
  | succ n ih =>
      intro r0 xs ys c hxs hys hc
      rw [mergeLoop]
      have hstep := mergeStep_good (goodFrom_head hxs) (goodFrom_head hys) hc
      exact goodFrom_cons hstep.1
        (ih (r0 + 1) xs.tail ys.tail _ (goodFrom_tail hxs) (goodFrom_tail hys) hstep.2)

theorem mergeLoop_ordered [LinearOrder α] :
    ∀ (n : Nat) (xs ys : List (Option (BNode α))) (c : Option (BNode α)),
      OrderedForest xs → OrderedForest ys → (∀ t, c = some t → Ordered t) →
      OrderedForest (mergeLoop n xs ys c) := by
  intro n
  induction n with
  | zero => intro xs ys c _ _ _ i t hit; simp [mergeLoop] at hit
  | succ n ih =>
      intro xs ys c hxs hys hc
      rw [mergeLoop]
      have hstep := mergeStep_ordered (orderedForest_head hxs) (orderedForest_head hys) hc
      exact orderedForest_cons hstep.1
        (ih xs.tail ys.tail _ (orderedForest_tail hxs) (orderedForest_tail hys) hstep.2)

theorem forestElems_append (xs ys : List (Option (BNode α))) :
    forestElems (xs ++ ys) = forestElems xs + forestElems ys := by
  induction xs with
  | nil => simp [forestElems]
  | cons s ss ih => simp [forestElems, ih, add_assoc]

theorem get?_dropLast {β : Type} :
    ∀ (l : List β) (i : Nat) (x : β), l.dropLast.get? i = some x → l.get? i = some x := by
  intro l
  induction l with
  | nil => intro i x hx; simp at hx
  | cons a t ih =>
      intro i x hx
      cases t with
      | nil => simp at hx
      | cons b u =>
          cases i with
          | zero => simpa using hx
          | succ i =>
              simp only [List.dropLast_cons₂, List.get?] at hx ⊢
              exact ih i x hx

theorem popTrailingNone_elems (l : List (Option (BNode α))) :
    forestElems (popTrailingNone l) = forestElems l := by
  unfold popTrailingNone
  split
  · next hlast =>
      have hne : l ≠ [] := by
        intro hnil
        subst hnil
        simp at hlast
      have hl : l.dropLast ++ [l.getLast hne] = l := List.dropLast_append_getLast hne
      have hgl : l.getLast hne = none := by
        have := List.getLast?_eq_getLast l hne
        rw [hlast] at this
        exact (Option.some.injEq _ _ ▸ this.symm)
      conv_rhs => rw [← hl]
      rw [forestElems_append, hgl]
      simp [forestElems, slotElems]
  · rfl

theorem goodFrom_popTrailingNone [LinearOrder α] {r0 : Nat} {ts : List (Option (BNode α))}
    (h : GoodFrom r0 ts) : GoodFrom r0 (popTrailingNone ts) := by
  unfold popTrailingNone
  split
  · intro i t hit
    exact h i t (get?_dropLast _ _ _ hit)
  · exact h

theorem orderedForest_popTrailingNone [LinearOrder α] {ts : List (Option (BNode α))}
    (h : OrderedForest ts) : OrderedForest (popTrailingNone ts) := by
  unfold popTrailingNone
  split
  · intro i t hit
    exact h i t (get?_dropLast _ _ _ hit)
  · exact h

theorem bmerge_elems [LinearOrder α] (h1 h2 : BinomialHeap α) :
    elems (merge h1 h2) = elems h1 + elems h2 := by
  unfold merge elems
  rw [popTrailingNone_elems, mergeLoop_elems _ _ _ _ (by omega) (by omega)]
  simp [slotElems]

theorem bmerge_good [LinearOrder α] {h1 h2 : BinomialHeap α}
    (g1 : GoodForest h1.trees) (g2 : GoodForest h2.trees) :
    GoodForest (merge h1 h2).trees := by
  unfold merge
  exact goodFrom_popTrailingNone
    (mergeLoop_good _ 0 _ _ _ g1 g2 (fun t ht => by cases ht))

theorem bmerge_ordered [LinearOrder α] {h1 h2 : BinomialHeap α}
    (o1 : OrderedForest h1.trees) (o2 : OrderedForest h2.trees) :
    OrderedForest (merge h1 h2).trees := by
  unfold merge
  exact orderedForest_popTrailingNone
    (mergeLoop_ordered _ _ _ _ o1 o2 (fun t ht => by cases ht))

theorem enum_mem_iff {β : Type} (v : List β) (j : Nat) (s : β) :
    (j, s) ∈ v.enum ↔ v.get? j = some s := by
  constructor
  · intro hmem
    obtain ⟨n, hn⟩ := List.get?_of_mem hmem
    rw [List.get?_enum] at hn
    cases hv : v.get? n with
    | none => rw [hv] at hn; simp at hn
    | some x =>
        rw [hv] at hn
        simp only [Option.map_some', Option.some.injEq, Prod.mk.injEq] at hn
        obtain ⟨rfl, rfl⟩ := hn
        exact hv
  · intro hget
    have : v.enum.get? j = some (j, s) := by
      rw [List.get?_enum, hget]
      rfl
    exact List.get?_mem this

theorem mem_pairs_iff [LinearOrder α] (v : List (Option (BNode α))) (i : Nat) (e : α) :
    (i, e) ∈ v.enum.filterMap (fun p => p.2.map (fun t => (p.1, t.elem))) ↔
      ∃ t, v.get? i = some (some t) ∧ t.elem = e := by
  rw [List.mem_filterMap]
  constructor
  · rintro ⟨⟨j, s⟩, hmem, hf⟩
    cases s with
    | none => simp at hf
    | some t =>
        simp only [Option.map_some', Option.some.injEq, Prod.mk.injEq] at hf
        obtain ⟨rfl, rfl⟩ := hf
        exact ⟨t, (enum_mem_iff v j (some t)).mp hmem, rfl⟩
  · rintro ⟨t, hget, rfl⟩
    exact ⟨(i, some t), (enum_mem_iff v i (some t)).mpr hget, rfl⟩

theorem foldl_min_spec [LinearOrder α] :
    ∀ (rest : List (Nat × α)) (p : Nat × α),
      rest.foldl (fun x y => if x.2 < y.2 then x else y) p ∈ p :: rest ∧
      ∀ q ∈ p :: rest, (rest.foldl (fun x y => if x.2 < y.2 then x else y) p).2 ≤ q.2 := by
  intro rest
  induction rest with
  | nil =>
      intro p
      refine ⟨by simp, ?_⟩
      intro q hq
      simp only [List.mem_singleton] at hq
      subst hq
      exact le_refl _
  | cons r rs ih =>
      intro p
      obtain ⟨ihm, ihle⟩ := ih (if p.2 < r.2 then p else r)
      have hpr_mem : (if p.2 < r.2 then p else r) ∈ [p, r] := by
        split <;> simp
      have hpr_p : (if p.2 < r.2 then p else r).2 ≤ p.2 := by
        split
        · exact le_refl _
        · next hnp => exact le_of_not_lt hnp
      have hpr_r : (if p.2 < r.2 then p else r).2 ≤ r.2 := by
        split
        · next hp => exact le_of_lt hp
        · exact le_refl _
      constructor
      · simp only [List.foldl_cons]
        rcases List.mem_cons.mp ihm with heq | hmem
        · rw [heq]
          rcases List.mem_cons.mp hpr_mem with h1 | h1
          · simp [h1]
          · simp only [List.mem_singleton] at h1
            simp [h1]
        · simp [hmem]
      · intro q hq
        simp only [List.foldl_cons]
        rcases List.mem_cons.mp hq with rfl | hq2
        · exact le_trans (ihle _ (by simp)) hpr_p
        · rcases List.mem_cons.mp hq2 with rfl | hq3
          · exact le_trans (ihle _ (by simp)) hpr_r
          · exact ihle q (by simp [hq3])

theorem min_index_none_iff [LinearOrder α] (v : List (Option (BNode α))) :
    min_index v = none ↔ ∀ s ∈ v, s = none := by
  unfold min_index
  split
  · next heq =>
      simp only [true_iff]
      intro s hs
      obtain ⟨j, hj⟩ := List.get?_of_mem hs
      have hmem : (j, s) ∈ v.enum := (enum_mem_iff v j s).mpr hj
      have := (List.filterMap_eq_nil.mp heq) (j, s) hmem
      cases s with
      | none => rfl
      | some t => simp at this
  · next p rest heq =>
      simp only [reduceCtorEq, false_iff]
      intro hall
      have hp : (p.1, p.2) ∈ v.enum.filterMap (fun q => q.2.map (fun t => (q.1, t.elem))) := by
        rw [heq]
        simp
      obtain ⟨t, hget, _⟩ := (mem_pairs_iff v p.1 p.2).mp hp
      have := hall (some t) (List.get?_mem hget)
      cases this

theorem min_index_spec [LinearOrder α] {v : List (Option (BNode α))} {i : Nat}
    (h : min_index v = some i) :
    ∃ t, v.get? i = some (some t) ∧
      ∀ j u, v.get? j = some (some u) → t.elem ≤ u.elem := by
  unfold min_index at h
  split at h
  · cases h
  · next p rest heq =>
      simp only [Option.some.injEq] at h
      obtain ⟨hm, hle⟩ := foldl_min_spec rest p
      rw [← heq] at hm
      set res := rest.foldl (fun x y => if x.2 < y.2 then x else y) p with hres
      obtain ⟨t, hget, helem⟩ := (mem_pairs_iff v res.1 res.2).mp hm
      rw [h] at hget
      refine ⟨t, hget, ?_⟩
      intro j u hju
      have hmem : (j, u.elem) ∈ v.enum.filterMap (fun q => q.2.map (fun w => (q.1, w.elem))) :=
        (mem_pairs_iff v j u.elem).mpr ⟨u, hju, rfl⟩
      rw [heq] at hmem
      have := hle (j, u.elem) hmem
      rw [helem]
      exact this

theorem slotElems_eq_zero_iff (s : Option (BNode α)) : slotElems s = 0 ↔ s = none := by
  cases s with
  | none => simp [slotElems]
  | some t =>
      cases t with
      | mk e cs => simp [slotElems, elems_mk]

theorem forestElems_eq_zero_iff (ts : List (Option (BNode α))) :
    forestElems ts = 0 ↔ ∀ s ∈ ts, s = none := by
  induction ts with
  | nil => simp [forestElems]
  | cons s ss ih =>
      simp only [forestElems, List.mem_cons, add_eq_zero, ih, slotElems_eq_zero_iff]
      constructor
      · rintro ⟨h1, h2⟩ x hx
        rcases hx with rfl | hx
        · exact h1
        · exact h2 x hx
      · intro hall
        exact ⟨hall s (Or.inl rfl), fun x hx => hall x (Or.inr hx)⟩

theorem bfind_min_none_iff [LinearOrder α] (h : BinomialHeap α) :
    find_min h = none ↔ elems h = 0 := by
  unfold find_min
  rw [elems, forestElems_eq_zero_iff]
  split
  · next hmi =>
      simp only [true_iff]
      exact (min_index_none_iff _).mp hmi
  · next i hmi =>
      obtain ⟨t, hget, _⟩ := min_index_spec hmi
      have hgd : h.trees.getD i none = some t := by
        rw [List.getD_eq_get?, hget]
        rfl
      rw [hgd]
      simp only [Option.map_some', reduceCtorEq, false_iff]
      intro hall
      have := hall (some t) (List.get?_mem hget)
      cases this

theorem mem_forestElems {ts : List (Option (BNode α))} {x : α}
    (hx : x ∈ forestElems ts) :
    ∃ j u, ts.get? j = some (some u) ∧ x ∈ BNode.elems u := by
  induction ts with
  | nil => simp [forestElems] at hx
  | cons s ss ih =>
      rw [forestElems] at hx
      rcases Multiset.mem_add.mp hx with hx | hx
      · cases s with
        | none => simp [slotElems] at hx
        | some u => exact ⟨0, u, rfl, hx⟩
      · obtain ⟨j, u, hju, hxu⟩ := ih hx
        exact ⟨j + 1, u, by simpa using hju, hxu⟩

theorem forestElems_mem_of_get? {ts : List (Option (BNode α))} {j : Nat} {u : BNode α}
    (hju : ts.get? j = some (some u)) : ∀ x ∈ BNode.elems u, x ∈ forestElems ts := by
  induction ts generalizing j with
  | nil => simp at hju
  | cons s ss ih =>
      intro x hx
      rw [forestElems]
      cases j with
      | zero =>
          simp only [List.get?, Option.some.injEq] at hju
          subst hju
          exact Multiset.mem_add.mpr (Or.inl (by simpa [slotElems] using hx))
      | succ j =>
          simp only [List.get?] at hju
          exact Multiset.mem_add.mpr (Or.inr (ih hju x hx))

theorem bfind_min_spec [LinearOrder α] {h : BinomialHeap α}
    (ho : OrderedForest h.trees) {m : α} (hm : find_min h = some m) :
    m ∈ elems h ∧ ∀ x ∈ elems h, m ≤ x := by
  unfold find_min at hm
  split at hm
  · cases hm
  · next i hmi =>
      obtain ⟨t, hget, hmin⟩ := min_index_spec hmi
      have hgd : h.trees.getD i none = some t := by
        rw [List.getD_eq_get?, hget]
        rfl
      rw [hgd] at hm
      simp only [Option.map_some', Option.some.injEq] at hm
      subst hm
      constructor
      · refine forestElems_mem_of_get? hget t.elem ?_
        cases t with
        | mk e cs => simp [elems_mk, BNode.elem]
      · intro x hx
        obtain ⟨j, u, hju, hxu⟩ := mem_forestElems hx
        exact le_trans (hmin j u hju) (ordered_root_le (ho j u hju) x hxu)

theorem forestElems_set_none {ts : List (Option (BNode α))} :
    ∀ {i : Nat} {t : BNode α}, ts.get? i = some (some t) →
      forestElems ts = BNode.elems t + forestElems (ts.set i none) := by
  induction ts with
  | nil => intro i t h; simp at h
  | cons s ss ih =>
      intro i t h
      cases i with
      | zero =>
          simp only [List.get?, Option.some.injEq] at h
          subst h
          simp [forestElems, slotElems]
      | succ i =>
          simp only [List.get?] at h
          simp only [List.set, forestElems]
          rw [ih h]
          abel

theorem forestElems_map_some (cs : List (BNode α)) :
    forestElems (cs.map some) = elemsList cs := by
  induction cs with
  | nil => simp [forestElems, elemsList]
  | cons t ts ih => simp [forestElems, elemsList, slotElems, ih]

theorem goodForest_children {r : Nat} {t : BNode α} (h : GoodTree r t) :
    GoodForest (t.children.map some) := by
  cases h with
  | mk e cs hcs =>
      intro i u hiu
      rw [List.get?_map] at hiu
      simp only [BNode.children] at hiu
      cases hc : cs.get? i with
      | none => rw [hc] at hiu; simp at hiu
      | some w =>
          rw [hc] at hiu
          simp only [Option.map_some', Option.some.injEq] at hiu
          subst hiu
          simpa using hcs i w hc

theorem orderedForest_children [LinearOrder α] {t : BNode α} (h : Ordered t) :
    OrderedForest (t.children.map some) := by
  cases h with
  | mk e cs hcs _ =>
      intro i u hiu
      rw [List.get?_map] at hiu
      simp only [BNode.children] at hiu
      cases hc : cs.get? i with
      | none => rw [hc] at hiu; simp at hiu
      | some w =>
          rw [hc] at hiu
          simp only [Option.map_some', Option.some.injEq] at hiu
          subst hiu
          exact hcs w (List.get?_mem hc)

theorem goodForest_set_none [LinearOrder α] {ts : List (Option (BNode α))} {i : Nat}
    (h : GoodForest ts) : GoodForest (ts.set i none) := by
  intro j u hju
  rw [List.get?_set] at hju
  split at hju
  · cases hj : ts.get? j with
    | none => rw [hj] at hju; simp at hju
    | some s => rw [hj] at hju; simp at hju
  · exact h j u hju

theorem orderedForest_set_none [LinearOrder α] {ts : List (Option (BNode α))} {i : Nat}
    (h : OrderedForest ts) : OrderedForest (ts.set i none) := by
  intro j u hju
  rw [List.get?_set] at hju
  split at hju
  · cases hj : ts.get? j with
    | none => rw [hj] at hju; simp at hju
    | some s => rw [hj] at hju; simp at hju
  · exact h j u hju

theorem bdelete_min_elems [LinearOrder α] {h : BinomialHeap α} {m : α}
    (hm : find_min h = some m) : elems h = m ::ₘ elems (delete_min h) := by
  unfold find_min at hm
  split at hm
  · cases hm
  · next i hmi =>
      obtain ⟨t, hget, _⟩ := min_index_spec hmi
      have hgd : h.trees.getD i none = some t := by
        rw [List.getD_eq_get?, hget]
        rfl
      rw [hgd] at hm
      simp only [Option.map_some', Option.some.injEq] at hm
      subst hm
      simp only [delete_min, hmi, hgd]
      rw [bmerge_elems]
      show elems h = t.elem ::ₘ (forestElems (h.trees.set i none) + forestElems (t.children.map some))
      rw [forestElems_map_some]
      rw [elems, forestElems_set_none hget]
      cases t with
      | mk e cs =>
          simp only [elems_mk, BNode.elem, BNode.children, Multiset.cons_add,
            ← Multiset.singleton_add]
          abel

theorem bdelete_min_empty [LinearOrder α] {h : BinomialHeap α}
    (hm : elems h = 0) : delete_min h = empty := by
  unfold delete_min
  have hnone : min_index h.trees = none := by
    rw [min_index_none_iff]
    exact (forestElems_eq_zero_iff _).mp hm
  rw [hnone]

theorem bdelete_min_good [LinearOrder α] {h : BinomialHeap α}
    (hg : GoodForest h.trees) (ho : OrderedForest h.trees) :
    GoodForest (delete_min h).trees ∧ OrderedForest (delete_min h).trees := by
  unfold delete_min
  split
  · exact ⟨fun i t hit => by simp [empty] at hit, fun i t hit => by simp [empty] at hit⟩
  · next i hmi =>
      split
      · exact ⟨fun j t hjt => by simp [empty] at hjt, fun j t hjt => by simp [empty] at hjt⟩
      · next t hgd =>
          have hget : h.trees.get? i = some (some t) := by
            rw [List.getD_eq_get?] at hgd
            cases hq : h.trees.get? i with
            | none => rw [hq] at hgd; simp at hgd
            | some s => rw [hq] at hgd; simp at hgd; rw [hgd]
          have hrank : GoodTree i t := by
            have := hg i t hget
            simpa using this
          refine ⟨bmerge_good (goodForest_set_none hg) (goodForest_children hrank),
            bmerge_ordered (orderedForest_set_none ho) (orderedForest_children (ho i t hget))⟩

/-- The singleton forest built by `insert`. -/
theorem singleton_good [LinearOrder α] (x : α) :
    GoodForest ([some (.mk x [])] : List (Option (BNode α))) ∧
      OrderedForest ([some (.mk x [])] : List (Option (BNode α))) := by
  constructor
  · intro i t hit
    cases i with
    | zero =>
        simp only [List.get?, Option.some.injEq] at hit
        subst hit
        exact GoodTree.mk x [] (fun j u hju => by simp at hju)
    | succ i => simp at hit
  · intro i t hit
    cases i with
    | zero =>
        simp only [List.get?, Option.some.injEq] at hit
        subst hit
        exact Ordered.mk x [] (fun c hc => by simp at hc) (fun z hz => by simp [elemsList] at hz)
    | succ i => simp at hit

/-- Heaps reachable through the public operations. -/
inductive Reachable [LinearOrder α] : BinomialHeap α → Prop where
  | empty : Reachable empty
  | insert (h : BinomialHeap α) (x : α) : Reachable h → Reachable (Binomial.insert h x)
  | merge (h1 h2 : BinomialHeap α) : Reachable h1 → Reachable h2 → Reachable (merge h1 h2)
  | delete_min (h : BinomialHeap α) : Reachable h → Reachable (delete_min h)

theorem breachable_inv [LinearOrder α] {h : BinomialHeap α} (hr : Reachable h) :
    GoodForest h.trees ∧ OrderedForest h.trees := by
  induction hr with
  | empty =>
      exact ⟨fun i t hit => by simp [empty] at hit, fun i t hit => by simp [empty] at hit⟩
  | insert h x _ ih =>
      exact ⟨bmerge_good (singleton_good x).1 ih.1, bmerge_ordered (singleton_good x).2 ih.2⟩
  | merge h1 h2 _ _ ih1 ih2 =>
      exact ⟨bmerge_good ih1.1 ih2.1, bmerge_ordered ih1.2 ih2.2⟩
  | delete_min h _ ih =>
      exact bdelete_min_good ih.1 ih.2

theorem binsert_elems [LinearOrder α] (h : BinomialHeap α) (x : α) :
    elems (insert h x) = x ::ₘ elems h := by
  unfold insert
  rw [bmerge_elems]
  show forestElems [some (.mk x [])] + elems h = x ::ₘ elems h
  simp [forestElems, slotElems, elems_mk, elemsList]

/-- Repeatedly read-and-remove the minimum on a binomial heap, stopping when
the heap holds no more elements (`find_min` returns absence). -/
def bdrain [LinearOrder α] : Nat → BinomialHeap α → List α
  | 0, _ => []
  | n + 1, h =>
      match find_min h with
      | none => []
      | some m => m :: bdrain n (delete_min h)

theorem bdrain_sorted_perm [LinearOrder α] :
    ∀ (n : Nat) (h : BinomialHeap α), GoodForest h.trees → OrderedForest h.trees →
      Multiset.card (elems h) = n →
      (bdrain n h).Sorted (· ≤ ·) ∧ ((bdrain n h : List α) : Multiset α) = elems h := by
  intro n
  induction n with
  | zero =>
      intro h _ _ hc
      have : elems h = 0 := Multiset.card_eq_zero.mp hc
      simp [bdrain, this]
  | succ n ih =>
      intro h hg ho hc
      have hne : elems h ≠ 0 := by
        intro h0
        rw [h0] at hc
        simp at hc
      obtain ⟨m, hm⟩ : ∃ m, find_min h = some m := by
        cases hf : find_min h with
        | none => exact absurd ((bfind_min_none_iff h).mp hf) hne
        | some m => exact ⟨m, rfl⟩
      have helems := bdelete_min_elems hm
      have hcard : Multiset.card (elems (delete_min h)) = n := by
        have := congrArg Multiset.card helems
        simp only [Multiset.card_cons] at this
        omega
      obtain ⟨hgd, hod⟩ := bdelete_min_good hg ho
      obtain ⟨ihs, ihp⟩ := ih (delete_min h) hgd hod hcard
      have hmin := bfind_min_spec ho hm
      rw [show bdrain (n + 1) h = m :: bdrain n (delete_min h) by rw [bdrain, hm]]
      constructor
      · rw [List.sorted_cons]
        refine ⟨?_, ihs⟩
        intro b hb
        have : b ∈ elems (delete_min h) := by
          rw [← ihp]
          simpa using hb
        exact hmin.2 b (by rw [helems]; exact Multiset.mem_cons_of_mem this)
      · rw [helems, ← ihp]
        exact (Multiset.cons_coe m _).symm

/-- The ranks of a node's children in STORED order, where the rank of a tree
is its number of root children. -/
def childRanks (t : BNode α) : List Nat := t.children.map (fun c => c.children.length)

/-- At every node of the tree, the children's ranks in stored order are
`0, 1, ..., k-1` (smallest to largest). -/
inductive ChildrenAscending : BNode α → Prop where
  | mk (e : α) (cs : List (BNode α)) :
      (∀ c ∈ cs, ChildrenAscending c) →
      cs.map (fun c => c.children.length) = List.range cs.length →
      ChildrenAscending (.mk e cs)

theorem goodTree_children_length {r : Nat} {t : BNode α} (h : GoodTree r t) :
    t.children.length = r := by
  cases h with
  | mk e cs _ => simp [BNode.children]

theorem goodTree_childrenAscending {r : Nat} {t : BNode α} (h : GoodTree r t) :
    ChildrenAscending t := by
  induction h with
  | mk e cs hcs ih =>
      refine ChildrenAscending.mk e cs ?_ ?_
      · intro c hc
        obtain ⟨i, hi⟩ := List.get?_of_mem hc
        exact ih i c hi
      · apply List.ext_get?
        intro n
        rw [List.get?_map]
        by_cases hn : n < cs.length
        · obtain ⟨c, hc⟩ : ∃ c, cs.get? n = some c := by
            cases hq : cs.get? n with
            | none =>
                rw [List.get?_eq_none] at hq
                omega
            | some c => exact ⟨c, rfl⟩
          rw [hc, List.get?_range hn]
          simp only [Option.map_some', Option.some.injEq]
          exact goodTree_children_length (hcs n c hc)
        · rw [List.get?_eq_none.mpr (by omega), List.get?_eq_none.mpr (by simp; omega)]
          rfl

theorem childRanks_ascending {r : Nat} {t : BNode α} (h : GoodTree r t) :
    childRanks t = List.range r := by
  cases h with
  | mk e cs hcs =>
      unfold childRanks
      simp only [BNode.children]
      have := goodTree_childrenAscending (GoodTree.mk e cs hcs)
      cases this with
      | mk _ _ _ hmap => exact hmap

end Binomial

/-- Insert every element of `l`, left to right, into the empty leftist heap
(the generic quickcheck driver's first phase, `src/heap.rs` lines 19-23). -/
def leftistHeapOf {α : Type} [LinearOrder α] (l : List α) : Leftist.LHeap α :=
  l.foldl Leftist.insert Leftist.empty

/-- Heap-sort through the leftist heap: build by repeated `insert`, then
repeatedly read `find_min` and apply `delete_min` until the heap holds no
more elements. -/
def leftistHeapSort {α : Type} [LinearOrder α] (l : List α) : List α :=
  Leftist.drain l.length (leftistHeapOf l)

/-- Insert every element of `l`, left to right, into the empty binomial
heap. -/
def binomialHeapOf {α : Type} [LinearOrder α] (l : List α) : Binomial.BinomialHeap α :=
  l.foldl Binomial.insert Binomial.empty

/-- Heap-sort through the binomial heap. -/
def binomialHeapSort {α : Type} [LinearOrder α] (l : List α) : List α :=
  Binomial.bdrain l.length (binomialHeapOf l)

theorem leftistHeapOf_reachable {α : Type} [LinearOrder α] (l : List α) :
    Leftist.Reachable (leftistHeapOf l) := by
  unfold leftistHeapOf
  have : ∀ (l : List α) (acc : Leftist.LHeap α), Leftist.Reachable acc →
      Leftist.Reachable (l.foldl Leftist.insert acc) := by
    intro l
    induction l with
    | nil => intro acc hacc; exact hacc
    | cons x xs ih =>
        intro acc hacc
        exact ih _ (Leftist.Reachable.insert acc x hacc)
  exact this l _ Leftist.Reachable.empty

theorem binomialHeapOf_reachable {α : Type} [LinearOrder α] (l : List α) :
    Binomial.Reachable (binomialHeapOf l) := by
  unfold binomialHeapOf
  have : ∀ (l : List α) (acc : Binomial.BinomialHeap α), Binomial.Reachable acc →
      Binomial.Reachable (l.foldl Binomial.insert acc) := by
    intro l
    induction l with
    | nil => intro acc hacc; exact hacc
    | cons x xs ih =>
        intro acc hacc
        exact ih _ (Binomial.Reachable.insert acc x hacc)
  exact this l _ Binomial.Reachable.empty

theorem leftistHeapOf_elems {α : Type} [LinearOrder α] (l : List α) :
    Leftist.elems (leftistHeapOf l) = ↑l := by
  unfold leftistHeapOf
  have : ∀ (l : List α) (acc : Leftist.LHeap α),
      Leftist.elems (l.foldl Leftist.insert acc) = Leftist.elems acc + ↑l := by
    intro l
    induction l with
    | nil => intro acc; simp
    | cons x xs ih =>
        intro acc
        rw [List.foldl_cons, ih]
        unfold Leftist.insert
        rw [Leftist.elems_merge]
        show Leftist.elems acc + Leftist.elems (.node 1 x .nil .nil) + ↑xs = _
        simp only [Leftist.elems, add_zero, ← Multiset.cons_coe, ← Multiset.singleton_add]
        abel
  rw [this l _]
  simp [Leftist.elems, Leftist.empty]

theorem binomialHeapOf_elems {α : Type} [LinearOrder α] (l : List α) :
    Binomial.elems (binomialHeapOf l) = ↑l := by
  unfold binomialHeapOf
  have : ∀ (l : List α) (acc : Binomial.BinomialHeap α),
      Binomial.elems (l.foldl Binomial.insert acc) = Binomial.elems acc + ↑l := by
    intro l
    induction l with
    | nil => intro acc; simp
    | cons x xs ih =>
        intro acc
        rw [List.foldl_cons, ih, Binomial.binsert_elems]
        simp only [← Multiset.cons_coe, ← Multiset.singleton_add]
        abel
  rw [this l _]
  simp [Binomial.elems, Binomial.empty, Binomial.forestElems]

theorem leftistHeapSort_eq {α : Type} [LinearOrder α] (l : List α) :
    leftistHeapSort l = List.insertionSort (· ≤ ·) l := by
  have hr := Leftist.reachable_inv (leftistHeapOf_reachable l)
  have hsize : Leftist.size (leftistHeapOf l) = l.length := by
    rw [← Leftist.card_elems, leftistHeapOf_elems]
    simp
  obtain ⟨hs, hp⟩ := Leftist.drain_sorted_perm l.length (leftistHeapOf l) hr.1 hsize
  rw [leftistHeapOf_elems] at hp
  have hperm : (leftistHeapSort l).Perm l := by
    rw [← Multiset.coe_eq_coe]
    exact hp
  exact List.eq_of_perm_of_sorted
    (hperm.trans (List.perm_insertionSort (· ≤ ·) l).symm) hs
    (List.sorted_insertionSort (· ≤ ·) l)

theorem binomialHeapSort_eq {α : Type} [LinearOrder α] (l : List α) :
    binomialHeapSort l = List.insertionSort (· ≤ ·) l := by
  have hr := Binomial.breachable_inv (binomialHeapOf_reachable l)
  have hcard : Multiset.card (Binomial.elems (binomialHeapOf l)) = l.length := by
    rw [binomialHeapOf_elems]
    simp
  obtain ⟨hs, hp⟩ := Binomial.bdrain_sorted_perm l.length (binomialHeapOf l) hr.1 hr.2 hcard
  rw [binomialHeapOf_elems] at hp
  have hperm : (binomialHeapSort l).Perm l := by
    rw [← Multiset.coe_eq_coe]
    exact hp
  exact List.eq_of_perm_of_sorted
    (hperm.trans (List.perm_insertionSort (· ≤ ·) l).symm) hs
    (List.sorted_insertionSort (· ≤ ·) l)

/-- C1: for every finite list of elements and either heap implementation,
inserting all the elements into an empty heap and then repeatedly reading the
minimum with `find_min` and removing it with `delete_min` until the heap holds
no more elements yields exactly the input elements in non-decreasing sorted
order (equal, as a sequence, to the sorted input list). -/
theorem claim_C1_heapsort {α : Type} [LinearOrder α] (l : List α) :
    leftistHeapSort l = List.insertionSort (· ≤ ·) l ∧
    binomialHeapSort l = List.insertionSort (· ≤ ·) l :=
  ⟨leftistHeapSort_eq l, binomialHeapSort_eq l⟩

/-- C2: for both implementations, the multiset of elements of `merge h1 h2`
is the multiset union (with multiplicity) of the elements of `h1` and `h2`;
in particular merge is commutative in element content.  (The heaps are pure
values in this embedding, so `h1` and `h2` are unchanged by construction.) -/
theorem claim_C2_merge_multiset {α : Type} [LinearOrder α]
    (hB1 hB2 : Binomial.BinomialHeap α) (hL1 hL2 : Leftist.LHeap α) :
    Binomial.elems (Binomial.merge hB1 hB2) = Binomial.elems hB1 + Binomial.elems hB2 ∧
    Binomial.elems (Binomial.merge hB1 hB2) = Binomial.elems (Binomial.merge hB2 hB1) ∧
    Leftist.elems (Leftist.merge hL1 hL2) = Leftist.elems hL1 + Leftist.elems hL2 ∧
    Leftist.elems (Leftist.merge hL1 hL2) = Leftist.elems (Leftist.merge hL2 hL1) := by
  refine ⟨Binomial.bmerge_elems _ _, ?_, Leftist.elems_merge _ _, ?_⟩
  · rw [Binomial.bmerge_elems, Binomial.bmerge_elems]
    exact add_comm _ _
  · rw [Leftist.elems_merge, Leftist.elems_merge]
    exact add_comm _ _

/-- C3: for every reachable heap of either implementation, if the heap is
non-empty then `delete_min` removes exactly one occurrence of a minimum
element; if it holds no elements, `delete_min` returns the empty heap. -/
theorem claim_C3_delete_min {α : Type} [LinearOrder α]
    (hB : Binomial.BinomialHeap α) (hL : Leftist.LHeap α)
    (rB : Binomial.Reachable hB) (rL : Leftist.Reachable hL) :
    ((Binomial.elems hB ≠ 0 →
        ∃ m, m ∈ Binomial.elems hB ∧ (∀ x ∈ Binomial.elems hB, m ≤ x) ∧
          Binomial.elems (Binomial.delete_min hB) = (Binomial.elems hB).erase m) ∧
      (Binomial.elems hB = 0 → Binomial.delete_min hB = Binomial.empty)) ∧
    ((Leftist.elems hL ≠ 0 →
        ∃ m, m ∈ Leftist.elems hL ∧ (∀ x ∈ Leftist.elems hL, m ≤ x) ∧
          Leftist.elems (Leftist.delete_min hL) = (Leftist.elems hL).erase m) ∧
      (Leftist.elems hL = 0 → Leftist.delete_min hL = Leftist.empty)) := by
  constructor
  · constructor
    · intro hne
      obtain ⟨m, hm⟩ : ∃ m, Binomial.find_min hB = some m := by
        cases hf : Binomial.find_min hB with
        | none => exact absurd ((Binomial.bfind_min_none_iff hB).mp hf) hne
        | some m => exact ⟨m, rfl⟩
      have hspec := Binomial.bfind_min_spec (Binomial.breachable_inv rB).2 hm
      have helems := Binomial.bdelete_min_elems hm
      refine ⟨m, hspec.1, hspec.2, ?_⟩
      rw [helems, Multiset.erase_cons_head]
    · exact Binomial.bdelete_min_empty
  · constructor
    · intro hne
      have hnnil : hL ≠ .nil := by
        intro hnil
        rw [← Leftist.elems_eq_zero_iff_nil] at hnil
        exact hne hnil
      obtain ⟨m, hm⟩ : ∃ m, Leftist.find_min hL = some m := by
        cases hf : Leftist.find_min hL with
        | none => exact absurd ((Leftist.find_min_eq_none_iff hL).mp hf) hnnil
        | some m => exact ⟨m, rfl⟩
      have hspec := Leftist.find_min_spec (Leftist.reachable_inv rL).1 hm
      have helems := Leftist.elems_delete_min hm
      refine ⟨m, hspec.1, hspec.2, ?_⟩
      rw [helems, Multiset.erase_cons_head]
    · intro h0
      have : hL = .nil := (Leftist.elems_eq_zero_iff_nil hL).mp h0
      subst this
      rfl

/-- Witness for C3 at the concrete reachable heaps `insert(empty, 0)` of both
implementations. -/
theorem claim_C3_delete_min_witness :
    Binomial.Reachable (Binomial.insert Binomial.empty (0 : Int)) ∧
    Leftist.Reachable (Leftist.insert Leftist.empty (0 : Int)) ∧
    (((Binomial.elems (Binomial.insert Binomial.empty (0 : Int)) ≠ 0 →
        ∃ m, m ∈ Binomial.elems (Binomial.insert Binomial.empty (0 : Int)) ∧
          (∀ x ∈ Binomial.elems (Binomial.insert Binomial.empty (0 : Int)), m ≤ x) ∧
          Binomial.elems (Binomial.delete_min (Binomial.insert Binomial.empty (0 : Int))) =
            (Binomial.elems (Binomial.insert Binomial.empty (0 : Int))).erase m) ∧
      (Binomial.elems (Binomial.insert Binomial.empty (0 : Int)) = 0 →
        Binomial.delete_min (Binomial.insert Binomial.empty (0 : Int)) = Binomial.empty)) ∧
    ((Leftist.elems (Leftist.insert Leftist.empty (0 : Int)) ≠ 0 →
        ∃ m, m ∈ Leftist.elems (Leftist.insert Leftist.empty (0 : Int)) ∧
          (∀ x ∈ Leftist.elems (Leftist.insert Leftist.empty (0 : Int)), m ≤ x) ∧
          Leftist.elems (Leftist.delete_min (Leftist.insert Leftist.empty (0 : Int))) =
            (Leftist.elems (Leftist.insert Leftist.empty (0 : Int))).erase m) ∧
      (Leftist.elems (Leftist.insert Leftist.empty (0 : Int)) = 0 →
        Leftist.delete_min (Leftist.insert Leftist.empty (0 : Int)) = Leftist.empty))) :=
  ⟨Binomial.Reachable.insert _ _ Binomial.Reachable.empty,
   Leftist.Reachable.insert _ _ Leftist.Reachable.empty,
   claim_C3_delete_min _ _
     (Binomial.Reachable.insert _ _ Binomial.Reachable.empty)
     (Leftist.Reachable.insert _ _ Leftist.Reachable.empty)⟩

/-- C4: for every reachable heap of either implementation, `find_min` returns
a minimum element when the heap holds at least one element and absence
(`none`) when it holds none; for the binomial heap, any slot vector holding
only empty slots (non-empty or not) also yields absence. -/
theorem claim_C4_find_min {α : Type} [LinearOrder α]
    (hB : Binomial.BinomialHeap α) (hL : Leftist.LHeap α)
    (v : List (Option (Binomial.BNode α)))
    (rB : Binomial.Reachable hB) (rL : Leftist.Reachable hL)
    (hv : ∀ s ∈ v, s = none) :
    ((Binomial.elems hB ≠ 0 →
        ∃ m, Binomial.find_min hB = some m ∧ m ∈ Binomial.elems hB ∧
          ∀ x ∈ Binomial.elems hB, m ≤ x) ∧
      (Binomial.elems hB = 0 → Binomial.find_min hB = none)) ∧
    Binomial.find_min ⟨v⟩ = none ∧
    ((Leftist.elems hL ≠ 0 →
        ∃ m, Leftist.find_min hL = some m ∧ m ∈ Leftist.elems hL ∧
          ∀ x ∈ Leftist.elems hL, m ≤ x) ∧
      (Leftist.elems hL = 0 → Leftist.find_min hL = none)) := by
  refine ⟨⟨?_, ?_⟩, ?_, ?_, ?_⟩
  · intro hne
    obtain ⟨m, hm⟩ : ∃ m, Binomial.find_min hB = some m := by
      cases hf : Binomial.find_min hB with
      | none => exact absurd ((Binomial.bfind_min_none_iff hB).mp hf) hne
      | some m => exact ⟨m, rfl⟩
    have hspec := Binomial.bfind_min_spec (Binomial.breachable_inv rB).2 hm
    exact ⟨m, hm, hspec.1, hspec.2⟩
  · exact (Binomial.bfind_min_none_iff hB).mpr
  · show Binomial.find_min ⟨v⟩ = none
    unfold Binomial.find_min
    rw [(Binomial.min_index_none_iff v).mpr hv]
  · intro hne
    have hnnil : hL ≠ .nil := by
      intro hnil
      rw [← Leftist.elems_eq_zero_iff_nil] at hnil
      exact hne hnil
    obtain ⟨m, hm⟩ : ∃ m, Leftist.find_min hL = some m := by
      cases hf : Leftist.find_min hL with
      | none => exact absurd ((Leftist.find_min_eq_none_iff hL).mp hf) hnnil
      | some m => exact ⟨m, rfl⟩
    have hspec := Leftist.find_min_spec (Leftist.reachable_inv rL).1 hm
    exact ⟨m, hm, hspec.1, hspec.2⟩
  · intro h0
    rw [Leftist.find_min_eq_none_iff]
    exact (Leftist.elems_eq_zero_iff_nil hL).mp h0

/-- Witness for C4 at `insert(empty, 0)` of both implementations and the
all-empty slot vector `[None]`. -/
theorem claim_C4_find_min_witness :
    Binomial.Reachable (Binomial.insert Binomial.empty (0 : Int)) ∧
    Leftist.Reachable (Leftist.insert Leftist.empty (0 : Int)) ∧
    (∀ s ∈ ([none] : List (Option (Binomial.BNode Int))), s = none) ∧
    (((Binomial.elems (Binomial.insert Binomial.empty (0 : Int)) ≠ 0 →
        ∃ m, Binomial.find_min (Binomial.insert Binomial.empty (0 : Int)) = some m ∧
          m ∈ Binomial.elems (Binomial.insert Binomial.empty (0 : Int)) ∧
          ∀ x ∈ Binomial.elems (Binomial.insert Binomial.empty (0 : Int)), m ≤ x) ∧
      (Binomial.elems (Binomial.insert Binomial.empty (0 : Int)) = 0 →
        Binomial.find_min (Binomial.insert Binomial.empty (0 : Int)) = none)) ∧
    Binomial.find_min (⟨[none]⟩ : Binomial.BinomialHeap Int) = none ∧
    ((Leftist.elems (Leftist.insert Leftist.empty (0 : Int)) ≠ 0 →
        ∃ m, Leftist.find_min (Leftist.insert Leftist.empty (0 : Int)) = some m ∧
          m ∈ Leftist.elems (Leftist.insert Leftist.empty (0 : Int)) ∧
          ∀ x ∈ Leftist.elems (Leftist.insert Leftist.empty (0 : Int)), m ≤ x) ∧
      (Leftist.elems (Leftist.insert Leftist.empty (0 : Int)) = 0 →
        Leftist.find_min (Leftist.insert Leftist.empty (0 : Int)) = none))) :=
  ⟨Binomial.Reachable.insert _ _ Binomial.Reachable.empty,
   Leftist.Reachable.insert _ _ Leftist.Reachable.empty,
   by simp,
   claim_C4_find_min _ _ [none]
     (Binomial.Reachable.insert _ _ Binomial.Reachable.empty)
     (Leftist.Reachable.insert _ _ Leftist.Reachable.empty)
     (by simp)⟩

/-- C5 (code bug): the reachable heap `empty().insert(0).delete_min()` of the
binomial implementation holds no elements, yet `is_empty` returns `false`:
`delete_min` leaves the slot vector `[None]` (the merge pops only ONE
trailing empty slot), and `is_empty` only tests whether the slot vector is
empty.  So `is_empty` is NOT true iff the heap holds no elements. -/
theorem claim_C5_is_empty_bug :
    Binomial.Reachable (Binomial.delete_min (Binomial.insert Binomial.empty (0 : Int))) ∧
    (Binomial.delete_min (Binomial.insert Binomial.empty (0 : Int))).trees = [none] ∧
    Binomial.elems (Binomial.delete_min (Binomial.insert Binomial.empty (0 : Int))) = 0 ∧
    Binomial.is_empty (Binomial.delete_min (Binomial.insert Binomial.empty (0 : Int))) = false := by
  have htrees : (Binomial.delete_min (Binomial.insert Binomial.empty (0 : Int))).trees = [none] := by
    simp [Binomial.insert, Binomial.merge, Binomial.mergeLoop, Binomial.mergeStep,
      Binomial.empty, Binomial.popTrailingNone, Binomial.link, Binomial.BNode.elem,
      Binomial.BNode.children, Binomial.min_index, Binomial.delete_min,
      List.enum, List.enumFrom, List.filterMap, List.foldl, List.getD]
  refine ⟨Binomial.Reachable.delete_min _ (Binomial.Reachable.insert _ _ Binomial.Reachable.empty),
    htrees, ?_, ?_⟩
  · rw [Binomial.elems, htrees]
    simp [Binomial.forestElems, Binomial.slotElems]
  · rw [Binomial.is_empty, htrees]
    rfl

/-- C6 counterexample: the claim's trailing-trim guarantee fails.  The
reachable binomial heap `empty().insert(0).delete_min()` has the non-empty
slot vector `[None]`, whose LAST slot is empty: `delete_min` re-merges and
the merge removes at most one trailing empty slot, which here still leaves
one. -/
theorem claim_C6_counterexample :
    Binomial.Reachable (Binomial.delete_min (Binomial.insert Binomial.empty (0 : Int))) ∧
    (Binomial.delete_min (Binomial.insert Binomial.empty (0 : Int))).trees ≠ [] ∧
    (Binomial.delete_min (Binomial.insert Binomial.empty (0 : Int))).trees.getLast? =
      some none := by
  have htrees : (Binomial.delete_min (Binomial.insert Binomial.empty (0 : Int))).trees = [none] := by
    simp [Binomial.insert, Binomial.merge, Binomial.mergeLoop, Binomial.mergeStep,
      Binomial.empty, Binomial.popTrailingNone, Binomial.link, Binomial.BNode.elem,
      Binomial.BNode.children, Binomial.min_index, Binomial.delete_min,
      List.enum, List.enumFrom, List.filterMap, List.foldl, List.getD]
  refine ⟨Binomial.Reachable.delete_min _ (Binomial.Reachable.insert _ _ Binomial.Reachable.empty),
    ?_, ?_⟩
  · rw [htrees]
    simp
  · rw [htrees]
    rfl

/-- C6 amended: every reachable binomial heap satisfies the per-slot rank
invariant — the slot at index `r` is either empty or holds one binomial tree
of exactly rank `r` (at most one tree per rank).  The trailing-empty-slot
trim is NOT guaranteed after every operation (see the counterexample):
`merge` removes at most one trailing empty slot and `delete_min` can leave
one behind. -/
theorem claim_C6_forest_invariant {α : Type} [LinearOrder α]
    {h : Binomial.BinomialHeap α} (hr : Binomial.Reachable h) :
    ∀ r t, h.trees.get? r = some (some t) → Binomial.GoodTree r t := by
  intro r t hrt
  have := (Binomial.breachable_inv hr).1 r t hrt
  simpa using this

/-- Witness for the amended C6 at the concrete reachable heap
`empty().insert(0).insert(1)`. -/
theorem claim_C6_forest_invariant_witness :
    Binomial.Reachable (Binomial.insert (Binomial.insert Binomial.empty (0 : Int)) 1) ∧
    (∀ r t, (Binomial.insert (Binomial.insert Binomial.empty (0 : Int)) 1).trees.get? r =
      some (some t) → Binomial.GoodTree r t) :=
  ⟨Binomial.Reachable.insert _ _ (Binomial.Reachable.insert _ _ Binomial.Reachable.empty),
   claim_C6_forest_invariant
     (Binomial.Reachable.insert _ _ (Binomial.Reachable.insert _ _ Binomial.Reachable.empty))⟩

/-- C7: every reachable leftist heap (including those built by `from_iter`)
satisfies, at every node, `rank a ≥ rank b`, with the stored rank field equal
to `rank b + 1`. -/
theorem claim_C7_leftist_invariant {α : Type} [LinearOrder α]
    {h : Leftist.LHeap α} (hr : Leftist.Reachable h) : Leftist.LeftistInv h :=
  (Leftist.reachable_inv hr).2

/-- Witness for C7 at the concrete heap built by `from_iter([5,1,7,3,2,6,4])`. -/
theorem claim_C7_leftist_invariant_witness :
    Leftist.Reachable (Leftist.from_iter ([5, 1, 7, 3, 2, 6, 4] : List Int)) ∧
    Leftist.LeftistInv (Leftist.from_iter ([5, 1, 7, 3, 2, 6, 4] : List Int)) :=
  ⟨Leftist.Reachable.from_iter _,
   claim_C7_leftist_invariant (Leftist.Reachable.from_iter _)⟩

/-- C8 counterexample: the children of a binomial-tree node are stored
SMALLEST rank first, not largest first.  Inserting `0,1,2,3` into the empty
binomial heap yields one rank-2 tree whose children have ranks `[0, 1]` in
stored order, not `[1, 0]` as the claim states (`link` APPENDS the larger
root as the new last child). -/
theorem claim_C8_counterexample :
    ((Binomial.insert (Binomial.insert (Binomial.insert
        (Binomial.insert Binomial.empty (0 : Int)) 1) 2) 3).trees.getD 2 none).map
      Binomial.childRanks = some [0, 1] ∧
    some [0, 1] ≠ some [1, 0] := by
  constructor
  · simp [Binomial.insert, Binomial.merge, Binomial.mergeLoop, Binomial.mergeStep,
      Binomial.empty, Binomial.popTrailingNone, Binomial.link, Binomial.BNode.elem,
      Binomial.BNode.children, Binomial.childRanks, List.getD]
  · simp

/-- C8 amended: in every reachable binomial heap, the tree in the slot at
index `r` has exactly `r` children whose ranks, read in the STORED order, are
`0, 1, ..., r-1` (smallest to largest), and the same ascending-children shape
holds recursively at every node. -/
theorem claim_C8_children_order {α : Type} [LinearOrder α]
    {h : Binomial.BinomialHeap α} (hr : Binomial.Reachable h) :
    ∀ r t, h.trees.get? r = some (some t) →
      t.children.length = r ∧ Binomial.childRanks t = List.range r ∧
        Binomial.ChildrenAscending t := by
  intro r t hrt
  have hg : Binomial.GoodTree r t := by
    have := (Binomial.breachable_inv hr).1 r t hrt
    simpa using this
  exact ⟨Binomial.goodTree_children_length hg, Binomial.childRanks_ascending hg,
    Binomial.goodTree_childrenAscending hg⟩

/-- Witness for the amended C8 at the concrete reachable heap built by
inserting `0,1,2,3`. -/
theorem claim_C8_children_order_witness :
    Binomial.Reachable (Binomial.insert (Binomial.insert (Binomial.insert
      (Binomial.insert Binomial.empty (0 : Int)) 1) 2) 3) ∧
    (∀ r t, (Binomial.insert (Binomial.insert (Binomial.insert
        (Binomial.insert Binomial.empty (0 : Int)) 1) 2) 3).trees.get? r = some (some t) →
      t.children.length = r ∧ Binomial.childRanks t = List.range r ∧
        Binomial.ChildrenAscending t) :=
  ⟨Binomial.Reachable.insert _ _ (Binomial.Reachable.insert _ _
      (Binomial.Reachable.insert _ _ (Binomial.Reachable.insert _ _ Binomial.Reachable.empty))),
   claim_C8_children_order
     (Binomial.Reachable.insert _ _ (Binomial.Reachable.insert _ _
      (Binomial.Reachable.insert _ _ (Binomial.Reachable.insert _ _ Binomial.Reachable.empty))))⟩

/-- C9 (code bug): during `from_iter`'s input phase the collapsing loop
BREAKS when `rank(second-from-top) <= rank(top)` — it merges only while the
second-from-top rank is STRICTLY GREATER, the opposite of the claim (and of
the spec).  Concretely, after pushing the two singletons of input `[1, 2]`
(both of rank 1) the stack still holds TWO entries, where the claimed loop
(merge while `rank(second) ≤ rank(top)`) would have collapsed them to one;
with this inverted condition no merge ever fires during the input phase,
contradicting the code's own `Only merge similar sized heaps` comment and
its `full iteration = O(n)` doc comment. -/
theorem claim_C9_collapse_inverted :
    (Leftist.pushPhase ([1, 2] : List Int) []).length = 2 ∧
    (Leftist.pushPhase ([1, 2] : List Int) []).map Leftist.rank = [1, 1] := by
  have hstack : Leftist.pushPhase ([1, 2] : List Int) [] =
      [Leftist.link 1 2 .nil .nil, Leftist.link 1 1 .nil .nil] := by
    simp [Leftist.pushPhase, Leftist.collapse, Leftist.link, Leftist.rank]
  rw [hstack]
  constructor
  · rfl
  · rfl

/-- C10: for every reachable leftist heap, the consuming iterator (`next` =
read `find_min`, step to `delete_min`) yields exactly the heap's elements in
non-decreasing order, and after the heap becomes empty every further `next`
call yields `none` again (the iterator is fused, never failing). -/
theorem claim_C10_iterator {α : Type} [LinearOrder α]
    {h : Leftist.LHeap α} (hr : Leftist.Reachable h) :
    (Leftist.drain (Leftist.size h) h).Sorted (· ≤ ·) ∧
    ((Leftist.drain (Leftist.size h) h : List α) : Multiset α) = Leftist.elems h ∧
    ∀ k, Leftist.iterTake (Leftist.size h + k) h =
      (Leftist.drain (Leftist.size h) h).map some ++ List.replicate k none := by
  have ho := (Leftist.reachable_inv hr).1
  obtain ⟨hs, hp⟩ := Leftist.drain_sorted_perm (Leftist.size h) h ho rfl
  exact ⟨hs, hp, fun k => Leftist.iterTake_spec (Leftist.size h) h rfl k⟩

/-- Witness for C10 at the concrete heap built by `from_iter([2,1])`. -/
theorem claim_C10_iterator_witness :
    Leftist.Reachable (Leftist.from_iter ([2, 1] : List Int)) ∧
    ((Leftist.drain (Leftist.size (Leftist.from_iter ([2, 1] : List Int)))
        (Leftist.from_iter ([2, 1] : List Int))).Sorted (· ≤ ·) ∧
      ((Leftist.drain (Leftist.size (Leftist.from_iter ([2, 1] : List Int)))
        (Leftist.from_iter ([2, 1] : List Int)) : List Int) : Multiset Int) =
        Leftist.elems (Leftist.from_iter ([2, 1] : List Int)) ∧
      ∀ k, Leftist.iterTake (Leftist.size (Leftist.from_iter ([2, 1] : List Int)) + k)
          (Leftist.from_iter ([2, 1] : List Int)) =
        (Leftist.drain (Leftist.size (Leftist.from_iter ([2, 1] : List Int)))
          (Leftist.from_iter ([2, 1] : List Int))).map some ++ List.replicate k none) :=
  ⟨Leftist.Reachable.from_iter _, claim_C10_iterator (Leftist.Reachable.from_iter _)⟩

end Okasakish
